import Mathlib

/-!
Verification of the FASTQ housekeeping scripts (general_fastq_concat.py,
ci_fastq_concat.py, ci_rename_barcode_to_sample.py) against their
natural-language specification.

The Python code is shallowly embedded: strings are Lean `String`s (operated
on through their `List Char` data to keep every definition executable and
provable), the regular-expression searches of the scripts are embedded as
leftmost-match scans with the exact backtracking semantics of the two
concrete patterns, and the stateful parts (directory creation, job
submission, shell calls, renames) are embedded as pure functions that return
the list of filesystem/subprocess effects the script would perform.
-/

/-! ## Character classes of the read-detection regex

`detect_read` in general_fastq_concat.py uses
`re.search(r'([._-])([rR])[_]?([12])(\D|$)', filename)`.
-/

/-- The separator class `[._-]`. -/
def isSep (c : Char) : Bool := c = '.' || c = '_' || c = '-'

/-- The letter class `[rR]`. -/
def isRL (c : Char) : Bool := c = 'r' || c = 'R'

/-- The digit class `[12]`. -/
def isD12 (c : Char) : Bool := c = '1' || c = '2'

/-- The trailing context `(\D|$)`: the remaining input is empty or starts
with a non-digit.  (`\D` is modelled on decimal digits `0`-`9`.) -/
def tailOk : List Char → Bool
  | [] => true
  | c :: _ => !c.isDigit

/-- Attempt of the pattern `([._-])([rR])[_]?([12])(\D|$)` at the head of
the input, with Python's backtracking semantics for the greedy `[_]?`:
if an underscore is present the digit must follow it (falling back to the
no-underscore reading can never succeed because `'_'` is not in `[12]`).
Returns the captured letter and digit on success. -/
def matchHere (l : List Char) : Option (Char × Char) :=
  match l with
  | c1 :: c2 :: rest =>
    if isSep c1 && isRL c2 then
      match rest with
      | c :: t =>
        if c = '_' then
          match t with
          | d :: t2 => if isD12 d && tailOk t2 then some (c2, d) else none
          | [] => none
        else
          if isD12 c && tailOk t then some (c2, c) else none
      | [] => none
    else none
  | _ => none

/-- Leftmost-match search: `re.search` tries every start position from the
left and returns the first position where the pattern matches, together
with the match data.  Returns the start index and the value produced by the
position matcher `p`. -/
def firstHit (p : List Char → Option β) : List Char → Option (Nat × β)
  | [] => (p []).map (fun b => (0, b))
  | l@(_ :: rest) =>
    match p l with
    | some b => some (0, b)
    | none => (firstHit p rest).map (fun ib => (ib.1 + 1, ib.2))

/-- `detect_read(filename)` of general_fastq_concat.py: searches for the
read pattern; on a match returns `(read, prefix-before-the-match)` where
`read` is the lowercased letter followed by the digit; on no match the
Python code raises `ValueError`, embedded as `none`. -/
def detect_read (filename : String) : Option (String × String) :=
  match firstHit matchHere filename.data with
  | some (i, (le, d)) => some (String.mk [le.toLower, d], String.mk (filename.data.take i))
  | none => none

/-! ## Output read-label formatting -/

/-- The `--read-style` choices of general_fastq_concat.py. -/
inductive ReadStyle
  | r | R | r_ | R_
deriving DecidableEq

/-- Model of Python `str.upper()` (ASCII uppercasing, characterwise). -/
def strUpper (s : String) : String := String.mk (s.data.map Char.toUpper)

/-- `format_read(read, style)` of general_fastq_concat.py.  The `r_`/`R_`
styles index `read[0]` and `read[1]`; on a string shorter than two
characters Python would raise `IndexError`, embedded as `none` (the
function is only ever called with the two-character reads `r1`/`r2`). -/
def format_read (read : String) (style : ReadStyle) : Option String :=
  match style with
  | .r => some read
  | .R => some (strUpper read)
  | .r_ =>
    match read.data with
    | a :: b :: _ => some (String.mk [a, '_', b])
    | _ => none
  | .R_ =>
    match read.data with
    | a :: b :: _ => some (String.mk [a.toUpper, '_', b])
    | _ => none

/-! ## The output-name reformatting regex of the planner

Lines 159-163 of general_fastq_concat.py:
`re.search(r'(r[_]?1|R[_]?1|r[_]?2|R[_]?2)', orig_outfile_name)`.
At any single position at most one of the eight literal alternatives
`r_1, r1, R_1, R1, r_2, r2, R_2, R2` can match (any two of them disagree
within their common length), so the alternation is embedded as the first
member of that list that is a prefix of the remaining input; the list is
ordered exactly as Python's alternation with greedy `[_]?` tries them. -/
def labels : List (List Char) :=
  [['r', '_', '1'], ['r', '1'], ['R', '_', '1'], ['R', '1'],
   ['r', '_', '2'], ['r', '2'], ['R', '_', '2'], ['R', '2']]

/-- Attempt of the read-label alternation at the head of the input. -/
def labelHere (l : List Char) : Option (List Char) :=
  labels.find? (fun m => m.isPrefixOf l)

/-- The per-style data of the reformatted read label `format_read ('r' + num, style)`. -/
def styledData (style : ReadStyle) (d : Char) : List Char :=
  match style with
  | .r => ['r', d]
  | .R => ['R', d.toUpper]
  | .r_ => ['r', '_', d]
  | .R_ => ['R', '_', d]

/-- Lines 157-166 of general_fastq_concat.py: find the leftmost read label
in the stored output name, take its last character as the read number, and
replace the label in place by `format_read('r' + read_num, style)`; if no
label is found the name is kept unchanged. -/
def reformat_out (orig : String) (style : ReadStyle) : String :=
  match firstHit labelHere orig.data with
  | some (i, m) =>
    match format_read (String.mk ['r', m.getLastD ' ']) style with
    | some nr => String.mk (orig.data.take i ++ nr.data ++ (orig.data.drop i).drop m.length)
    | none => orig
  | none => orig

/-! ## String utilities used by the scripts -/

/-- Model of `os.path.basename`: everything after the last `/`. -/
def basename (f : String) : String :=
  String.mk (((f.data.reverse).takeWhile (fun c => c ≠ '/')).reverse)

/-- Model of Python `str.endswith(suffix)`. -/
def strEndsWith (s suf : String) : Bool := suf.data.isSuffixOf s.data

/-- Model of Python `s[:-n]` (for `n ≥ 1`): all but the last `n` characters. -/
def pyDropRight (s : String) (n : Nat) : String :=
  String.mk (s.data.take (s.data.length - n))

/-- Model of `os.path.join(a, b)` for a relative second component. -/
def pathJoin (a b : String) : String := a ++ "/" ++ b

/-- Model of Python `sep.join(parts)`. -/
def joinSep (sep : String) : List String → String
  | [] => ""
  | [x] => x
  | x :: y :: ys => x ++ sep ++ joinSep sep (y :: ys)

/-- Model of Python `str.split(sep)` for a non-empty separator: cut at each
leftmost non-overlapping occurrence of `sep`.  The recursion is driven by a
fuel counter (kept at least the input length by the wrapper, so the
exhaustion branch is never reached) to keep the definition structurally
recursive and hence kernel-evaluable. -/
def splitOnAux (sep : List Char) : Nat → List Char → List Char → List (List Char)
  | _, acc, [] => [acc.reverse]
  | 0, acc, l => [acc.reverse ++ l]
  | fuel + 1, acc, c :: rest =>
    if sep ≠ [] ∧ sep.isPrefixOf (c :: rest) then
      acc.reverse :: splitOnAux sep fuel [] ((c :: rest).drop sep.length)
    else
      splitOnAux sep fuel (c :: acc) rest

/-- `str.split(sep)` on strings. -/
def pySplit (s sep : String) : List String :=
  (splitOnAux sep.data s.data.length [] s.data).map String.mk

/-- Model of Python `str.replace(pat, repl)` (non-empty `pat`): replace the
leftmost occurrence of `pat` and continue after the replacement.  Fuel is
used exactly as in `splitOnAux`. -/
def replaceAll (pat repl : List Char) : Nat → List Char → List Char
  | _, [] => []
  | 0, l => l
  | fuel + 1, c :: rest =>
    if pat ≠ [] ∧ pat.isPrefixOf (c :: rest) then
      repl ++ replaceAll pat repl fuel ((c :: rest).drop pat.length)
    else
      c :: replaceAll pat repl fuel rest

/-- `str.replace` on strings. -/
def pyReplace (s pat repl : String) : String :=
  String.mk (replaceAll pat.data repl.data s.data.length s.data)

/-- Python string comparison (used by `sorted`): lexicographic on code
points. -/
def lexLe : List Char → List Char → Bool
  | [], _ => true
  | _ :: _, [] => false
  | a :: as, b :: bs => if a = b then lexLe as bs else decide (a < b)

/-- The ordering relation `sorted` uses on path strings. -/
def strLe (a b : String) : Prop := lexLe a.data b.data = true

instance : DecidableRel strLe := fun a b => by
  unfold strLe
  infer_instance

/-- Model of Python `sorted` on a list of strings: some sorting algorithm
for `strLe`; the result is characterised by being sorted and a permutation
of the input, which determines it uniquely because `strLe` is a total
order and equal strings are identical. -/
def sortStrings (l : List String) : List String := l.insertionSort strLe

/-! ## Group aggregation (general_fastq_concat.py, lines 96-126) -/

/-- The `--group-mode` choices.  (`exactMode` is `'exact'`, `preMode` is
the mode that groups by the detected leading part of the name.) -/
inductive GroupMode
  | exactMode | preMode
deriving DecidableEq

/-- One value of the `groups` defaultdict: the member files (in insertion
order) and the stored output name. -/
structure GroupInfo where
  files : List String
  outfile_name : String
deriving DecidableEq

/-- `groups[key]["files"].append(f); groups[key]["outfile_name"] = out`:
the insertion-ordered dictionary is embedded as an association list; a new
key is appended at the end, an existing key has the file appended to its
member list and its output name overwritten. -/
def updateGroups (gs : List ((String × String) × GroupInfo))
    (k : String × String) (f : String) (out : String) :
    List ((String × String) × GroupInfo) :=
  match gs with
  | [] => [(k, ⟨[f], out⟩)]
  | (k', gi) :: rest =>
    if k' = k then (k', ⟨gi.files ++ [f], out⟩) :: rest
    else (k', gi) :: updateGroups rest k f out

/-- The exact-mode stored output name (lines 105-109): normalize a
`.fastq.gz` basename to `.fq.gz`, keep other basenames unchanged. -/
def exactOutName (base : String) : String :=
  if strEndsWith base ".fastq.gz" then pyDropRight base 9 ++ ".fq.gz" else base

/-- One iteration of the grouping loop for one input path `f`: take the
basename, detect the read; on detection failure print the error and
`continue` (the groups are unchanged); otherwise insert under the
mode-dependent key with the mode-dependent output name.  In the non-exact
mode `format_read` is total on the two-character reads produced by
`detect_read`, so its `none` branch is unreachable. -/
def groupStep (mode : GroupMode) (style : ReadStyle)
    (gs : List ((String × String) × GroupInfo)) (f : String) :
    List ((String × String) × GroupInfo) :=
  let base := basename f
  match detect_read base with
  | none => gs
  | some (read, pre) =>
    match mode with
    | .exactMode => updateGroups gs (base, read) f (exactOutName base)
    | .preMode =>
      match format_read read style with
      | some fr => updateGroups gs (pre, read) f (pre ++ "_" ++ fr ++ ".fq.gz")
      | none => gs

/-- The whole grouping pass over the input file list. -/
def aggregate (mode : GroupMode) (style : ReadStyle) (files : List String) :
    List ((String × String) × GroupInfo) :=
  files.foldl (groupStep mode style) []

/-- The grouping key the script derives for a path (mirrors `groupStep`):
`(basename, read)` in exact mode, `(detected-leading-part, read)`
otherwise; `none` when the read pattern is not found. -/
def keyOf (mode : GroupMode) (f : String) : Option (String × String) :=
  match detect_read (basename f) with
  | none => none
  | some (read, pre) =>
    match mode with
    | .exactMode => some (basename f, read)
    | .preMode => some (pre, read)

/-! ## Execution planning (general_fastq_concat.py, lines 143-201) -/

/-- The collected plan: `single_file_groups` entries `(outfile_name, path)`
and local/slurm tasks `(out_path, files, out_base)`. -/
structure PlanResult where
  singles : List (String × String)
  tasks : List (String × List String × String)
deriving DecidableEq

/-- One iteration of the planning loop over a group: a one-member group is
recorded in `single_file_groups` and skipped; any other group gets its
stored output name reformatted by the read-label regex and yields one task.
(`files.headD ""` embeds `files[0]`, guarded by the length test.) -/
def planStep (outdir : String) (style : ReadStyle) (pr : PlanResult)
    (e : (String × String) × GroupInfo) : PlanResult :=
  if e.2.files.length = 1 then
    ⟨pr.singles ++ [(e.2.outfile_name, e.2.files.headD "")], pr.tasks⟩
  else
    ⟨pr.singles,
     pr.tasks ++ [(pathJoin outdir (reformat_out e.2.outfile_name style),
                   e.2.files, reformat_out e.2.outfile_name style)]⟩

/-- The planning pass over the groups. -/
def planGroups (outdir : String) (style : ReadStyle)
    (gs : List ((String × String) × GroupInfo)) : PlanResult :=
  gs.foldl (planStep outdir style) ⟨[], []⟩

/-- The concatenation command of a task (lines 63-64 and 168-172): the
input files are sorted before being joined into the command. -/
def cmdOfTask (t : String × List String × String) : String :=
  "cat " ++ joinSep " " (sortStrings t.2.1) ++ " > " ++ t.1

/-! ## Effect traces

The scripts' filesystem and subprocess actions, in program order.  `print`
calls are not effects (they mutate nothing). -/

/-- A filesystem/subprocess effect. -/
inductive Effect
  | mkdir (path : String)
  | writeScript (content : String)
  | submit (content : String)
  | runShell (cmd : String)
  | rename (old new : String)
deriving DecidableEq

/-- The generated Slurm job script (lines 173-186; the timestamped `echo`
observability lines, which perform no filesystem mutation, are elided). -/
def slurm_script (outdir out_base cmd key read : String) : String :=
  "#!/bin/bash\n#SBATCH --job-name=cat_" ++ pyReplace key "." "_" ++ "_" ++ read ++
  "\n#SBATCH --output=" ++ pathJoin (pathJoin outdir "slurmlogs") out_base ++ ".slurm.out" ++
  "\n#SBATCH --mem=12G\n#SBATCH --cpus-per-task=1\n#SBATCH --time=00:15:00\n\nset -euo pipefail\n" ++
  cmd ++ "\n"

/-- Effects of one iteration of the main loop for a non-singleton group
(lines 187-201): dry-run only prints; local mode only queues the task;
Slurm mode writes the job script to a temp file and submits it. -/
def loopStepEffects (dryRun lcl : Bool) (outdir : String)
    (e : (String × String) × GroupInfo) (t : String × List String × String) : List Effect :=
  if e.2.files.length = 1 then []
  else if dryRun then []
  else if lcl then []
  else
    [Effect.writeScript (slurm_script outdir t.2.2 (cmdOfTask t) e.1.1 e.1.2),
     Effect.submit (slurm_script outdir t.2.2 (cmdOfTask t) e.1.1 e.1.2)]

/-- The effect trace of general_fastq_concat.py after grouping: output
directory creation (line 131-134), slurmlogs creation (line 137-139), the
per-group loop, and the local worker-pool phase (lines 204-208), which runs
every queued task's command (each task reports independently; the pool
cancels nothing). -/
def generalEffects (dryRun lcl outdirExists : Bool) (outdir : String)
    (style : ReadStyle) (gs : List ((String × String) × GroupInfo)) : List Effect :=
  (if !outdirExists && !dryRun then [Effect.mkdir outdir] else []) ++
  (if !lcl && !dryRun then [Effect.mkdir (pathJoin outdir "slurmlogs")] else []) ++
  (gs.map fun e =>
    loopStepEffects dryRun lcl outdir e
      (pathJoin outdir (reformat_out e.2.outfile_name style), e.2.files,
       reformat_out e.2.outfile_name style)).flatten ++
  (if lcl && !dryRun then
    ((planGroups outdir style gs).tasks.map fun t => Effect.runShell (cmdOfTask t))
   else [])

/-- `run_concat_local(task)` (lines 60-73): run the task's command, return
`(success, out_base)`; the exit status of the shell command is supplied by
the oracle `exit` (0 is success). -/
def run_concat_local (exit : String → Nat) (t : String × List String × String) :
    Bool × String :=
  (exit (cmdOfTask t) = 0, t.2.2)

/-- The local worker pool (line 207-208): `pool.map` applies
`run_concat_local` to every queued task and collects every result. -/
def poolResults (exit : String → Nat) (tasks : List (String × List String × String)) :
    List (Bool × String) :=
  tasks.map (run_concat_local exit)

/-- The job script the Slurm branch generates for one non-singleton
group (the task data derived from the group exactly as in the main
loop). -/
def groupScript (outdir : String) (style : ReadStyle)
    (e : (String × String) × GroupInfo) : String :=
  slurm_script outdir (reformat_out e.2.outfile_name style)
    (cmdOfTask (pathJoin outdir (reformat_out e.2.outfile_name style), e.2.files,
      reformat_out e.2.outfile_name style))
    e.1.1 e.1.2

/-- The remote-submission side of the main loop (lines 148-201, Slurm
branch): every non-singleton group's job script is written and submitted
with `sbatch` in turn; the status of each submission (from the oracle
`exit`) is returned by `subprocess.run` — and discarded, the loop
continuing with the next group regardless. -/
def slurmSubmitLoop (exit : String → Nat) (outdir : String) (style : ReadStyle) :
    List ((String × String) × GroupInfo) → List (String × Nat)
  | [] => []
  | e :: rest =>
    if e.2.files.length = 1 then slurmSubmitLoop exit outdir style rest
    else (groupScript outdir style e, exit (groupScript outdir style e)) ::
      slurmSubmitLoop exit outdir style rest

/-! ## ci_fastq_concat.py -/

/-- Line 50: `"_".join(fq.split("_")[:-2])`. -/
def ciName (fq : String) : String :=
  joinSep "_" ((pySplit fq "_").take ((pySplit fq "_").length - 2))

/-- Line 53: `fq.split(".")[-2].replace("fastq", "fq") + ".gz"` (the `[-2]`
index exists for every name containing a dot; the glob guarantees a
`.fq.gz` suffix). -/
def ciExt (fq : String) : String :=
  pyReplace ((pySplit fq ".").getD ((pySplit fq ".").length - 2) "") "fastq" "fq" ++ ".gz"

/-- Lines 47-58: the set `uniqes` of `name + "..." + extens` keys, embedded
as a deduplicating insertion-ordered list. -/
def ciUniques (fqs : List String) : List String :=
  fqs.foldl
    (fun acc fq =>
      let u := ciName fq ++ "..." ++ ciExt fq
      if u ∈ acc then acc else acc ++ [u]) []

/-- Line 67: the sorted member files of a group: every scanned file whose
name starts with the group name and whose `fastq`-normalized name ends with
the group extension. -/
def ciCopies (fqs : List String) (uniq : String) : List String :=
  sortStrings (fqs.filter fun fq =>
    ((pySplit uniq "...").headD "").data.isPrefixOf fq.data &&
    strEndsWith (pyReplace fq "fastq" "fq") ((pySplit uniq "...").getLastD ""))

/-- Lines 60-70: the planned concatenations `(copies, outname, arg_text)`. -/
def ciPlanned (fqs : List String) : List (List String × String × String) :=
  (ciUniques fqs).map fun uniq =>
    let copies := ciCopies fqs uniq
    let outname := pyReplace uniq "..." "."
    (copies, outname, "cat " ++ joinSep " " copies ++ " > " ++ outname)

/-- Lines 80-86: the effect trace of the execution phase: dry-run performs
nothing; otherwise every planned command is passed to `call`. -/
def ciEffects (dryRun : Bool) (planned : List (List String × String × String)) :
    List Effect :=
  if dryRun then [] else planned.map fun t => Effect.runShell t.2.2

/-- The non-dry-run execution loop (lines 83-85): each planned command is
run in order and its exit status (from the oracle `exit`) is returned by
`call` — and discarded; the loop body never consults it. -/
def ciRunLoop (exit : String → Nat) :
    List (List String × String × String) → List (String × Nat)
  | [] => []
  | t :: rest => (t.2.2, exit t.2.2) :: ciRunLoop exit rest

/-! ## ci_rename_barcode_to_sample.py -/

/-- Python `str.strip()` (whitespace trim at both ends). -/
def pyStrip (s : String) : String :=
  String.mk (((s.data.dropWhile Char.isWhitespace).reverse.dropWhile Char.isWhitespace).reverse)

/-- Lines 68-94, one CSV data row: split on commas; fewer than 4 columns is
a malformed-line problem; otherwise derive old/new names for both reads and
for each read record a missing-source problem, an existing-target problem,
or a planned rename.  `isFile` and `fileExists` are the state of the
scanned directory (`os.path.isfile` / `os.path.exists`). -/
def processRow (isFile fileExists : String → Bool) (slx flowcell lane : String)
    (acc : List String × List (String × String)) (line : String) :
    List String × List (String × String) :=
  let cols := pySplit (pyStrip line) ","
  if cols.length < 4 then
    (acc.1 ++ ["Malformed line in csv: " ++ pyStrip line], acc.2)
  else
    let barcode := cols.getD 1 ""
    let sample := pyReplace (cols.getD 3 "") "-" "_"
    let old1 := slx ++ "." ++ barcode ++ "." ++ flowcell ++ ".s_" ++ lane ++ ".r_1.fq.gz"
    let old2 := slx ++ "." ++ barcode ++ "." ++ flowcell ++ ".s_" ++ lane ++ ".r_2.fq.gz"
    let new1 := sample ++ "_r1_" ++ flowcell ++ "_s" ++ lane ++ ".fq.gz"
    let new2 := sample ++ "_r2_" ++ flowcell ++ "_s" ++ lane ++ ".fq.gz"
    let acc1 :=
      if !isFile old1 then (acc.1 ++ ["Missing file: " ++ old1], acc.2)
      else if fileExists new1 then (acc.1 ++ ["Target file already exists: " ++ new1], acc.2)
      else (acc.1, acc.2 ++ [(old1, new1)])
    if !isFile old2 then (acc1.1 ++ ["Missing file: " ++ old2], acc1.2)
    else if fileExists new2 then (acc1.1 ++ ["Target file already exists: " ++ new2], acc1.2)
    else (acc1.1, acc1.2 ++ [(old2, new2)])

/-- Lines 60-94, one CSV file: `slx`/`flowcell`/`lane` come from the CSV
filename; the header line is skipped; the data rows are folded in order.
A CSV is given as its filename together with all its lines. -/
def processCsv (isFile fileExists : String → Bool)
    (acc : List String × List (String × String)) (csv : String × List String) :
    List String × List (String × String) :=
  let slx := (pySplit csv.1 ".").getD 0 ""
  let flowcell := (pySplit csv.1 ".").getD 1 ""
  let lane := ((pySplit ((pySplit csv.1 "s_").getLastD "") ".").getD 0 "")
  (csv.2.drop 1).foldl (processRow isFile fileExists slx flowcell lane) acc

/-- The whole scan over every `.contents.csv` file: the accumulated
`(problems, planned)` lists. -/
def renameScan (isFile fileExists : String → Bool)
    (csvs : List (String × List String)) : List String × List (String × String) :=
  csvs.foldl (processCsv isFile fileExists) ([], [])

/-- Lines 107-112: renames are performed only when dry-run is off and the
problem list is empty; otherwise the filesystem is untouched. -/
def renameEffects (dryRun : Bool) (scan : List String × List (String × String)) :
    List Effect :=
  if !dryRun && scan.1.isEmpty then scan.2.map fun p => Effect.rename p.1 p.2
  else []

/-! ## Specification-side definitions

These are written from the specification's words, to be compared with the
code-derived definitions above. -/

/-- From the spec (§4.1): a read-direction token at position `i` of the
filename: a single separator character (`.`, `_` or `-`), then `r`/`R`, an
optional underscore, then `1` or `2`, followed by a non-digit or the end of
the string. -/
def SpecToken (m : List Char) (letter digit : Char) : Prop :=
  (letter = 'r' ∨ letter = 'R') ∧ (digit = '1' ∨ digit = '2') ∧
  ∃ sep rest,
    (sep = '.' ∨ sep = '_' ∨ sep = '-') ∧
    (m = sep :: letter :: digit :: rest ∨ m = sep :: letter :: '_' :: digit :: rest) ∧
    (rest = [] ∨ ∃ c t, rest = c :: t ∧ c.isDigit = false)

/-- From the spec's style table (§4.3), read 1 column. -/
def specLabel1 : ReadStyle → String
  | .r => "r1"
  | .R => "R1"
  | .r_ => "r_1"
  | .R_ => "R_1"

/-- From the spec's style table (§4.3), read 2 column. -/
def specLabel2 : ReadStyle → String
  | .r => "r2"
  | .R => "R2"
  | .r_ => "r_2"
  | .R_ => "R_2"

/-- The prefix-mode output name (line 123 of general_fastq_concat.py):
`prefix + '_' + formatted_read + '.fq.gz'`. -/
def outname (key read : String) (style : ReadStyle) : Option String :=
  (format_read read style).map fun fr => key ++ "_" ++ fr ++ ".fq.gz"

/-! ## Lemmas: the leftmost-match search -/

theorem firstHit_eq_some_iff {β : Type} {p : List Char → Option β} {l : List Char}
    {i : Nat} {b : β} :
    firstHit p l = some (i, b) ↔
      p (l.drop i) = some b ∧ ∀ j, j < i → p (l.drop j) = none := by
  induction l generalizing i with
  | nil =>
    simp only [firstHit, List.drop_nil]
    cases hp : p [] with
    | none => simp
    | some b0 =>
      simp only [Option.map_some']
      constructor
      · intro h
        injection h with h1
        obtain ⟨rfl, rfl⟩ := Prod.mk.injEq 0 b0 i b |>.mp h1
        exact ⟨rfl, fun j hj => absurd hj (Nat.not_lt_zero j)⟩
      · rintro ⟨hb, hj⟩
        cases i with
        | zero => injection hb with hb; rw [hb]
        | succ n => exact (Option.some_ne_none b0 (hj 0 (Nat.succ_pos n))).elim
  | cons c rest ih =>
    simp only [firstHit]
    cases hp : p (c :: rest) with
    | some b0 =>
      constructor
      · intro h
        injection h with h1
        obtain ⟨rfl, rfl⟩ := Prod.mk.injEq 0 b0 i b |>.mp h1
        exact ⟨hp, fun j hj => absurd hj (Nat.not_lt_zero j)⟩
      · rintro ⟨hb, hj⟩
        cases i with
        | zero => rw [List.drop_zero] at hb; rw [hp] at hb; injection hb with hb; rw [hb]
        | succ n =>
          have h0 := hj 0 (Nat.succ_pos n)
          rw [List.drop_zero] at h0
          rw [h0] at hp; cases hp
    | none =>
      constructor
      · intro h
        rw [Option.map_eq_some'] at h
        obtain ⟨⟨i', b'⟩, hfh, heq⟩ := h
        obtain ⟨rfl, rfl⟩ := Prod.mk.injEq (i' + 1) b' i b |>.mp heq
        obtain ⟨hb, hjr⟩ := ih.mp hfh
        refine ⟨by rwa [List.drop_succ_cons], ?_⟩
        intro j hj
        cases j with
        | zero => rw [List.drop_zero]; exact hp
        | succ k => rw [List.drop_succ_cons]; exact hjr k (Nat.lt_of_succ_lt_succ hj)
      · rintro ⟨hb, hj⟩
        cases i with
        | zero => rw [List.drop_zero] at hb; rw [hb] at hp; cases hp
        | succ n =>
          rw [List.drop_succ_cons] at hb
          have hj' : ∀ j, j < n → p (rest.drop j) = none := by
            intro j hjn
            have := hj (j + 1) (Nat.succ_lt_succ hjn)
            rwa [List.drop_succ_cons] at this
          rw [ih.mpr ⟨hb, hj'⟩]
          rfl

theorem firstHit_eq_none_iff {β : Type} {p : List Char → Option β} {l : List Char} :
    firstHit p l = none ↔ ∀ i, p (l.drop i) = none := by
  induction l with
  | nil =>
    simp only [firstHit, List.drop_nil, Option.map_eq_none']
    exact ⟨fun h i => h, fun h => h 0⟩
  | cons c rest ih =>
    simp only [firstHit]
    cases hp : p (c :: rest) with
    | some b0 =>
      constructor
      · intro h; cases h
      · intro h
        have h0 := h 0
        rw [List.drop_zero] at h0
        rw [h0] at hp; cases hp
    | none =>
      rw [Option.map_eq_none', ih]
      constructor
      · intro h i
        cases i with
        | zero => rw [List.drop_zero]; exact hp
        | succ n => rw [List.drop_succ_cons]; exact h n
      · intro h i
        have := h (i + 1)
        rwa [List.drop_succ_cons] at this

/-! ## Lemmas: the detection pattern agrees with the specified token shape -/

theorem isSep_iff {c : Char} : isSep c = true ↔ c = '.' ∨ c = '_' ∨ c = '-' := by
  simp [isSep, or_assoc]

theorem isRL_iff {c : Char} : isRL c = true ↔ c = 'r' ∨ c = 'R' := by
  simp [isRL]

theorem isD12_iff {c : Char} : isD12 c = true ↔ c = '1' ∨ c = '2' := by
  simp [isD12]

theorem tailOk_iff {t : List Char} :
    tailOk t = true ↔ t = [] ∨ ∃ c r, t = c :: r ∧ c.isDigit = false := by
  cases t with
  | nil => simp [tailOk]
  | cons c r => simp [tailOk]

theorem toLower_of_rR {c : Char} (h : c = 'r' ∨ c = 'R') : c.toLower = 'r' := by
  rcases h with rfl | rfl <;> decide

theorem matchHere_eq_some_iff {l : List Char} {le d : Char} :
    matchHere l = some (le, d) ↔ SpecToken l le d := by
  constructor
  · intro h
    match l with
    | [] => simp [matchHere] at h
    | [c1] => simp [matchHere] at h
    | c1 :: c2 :: rest =>
      simp only [matchHere] at h
      by_cases h12 : (isSep c1 && isRL c2) = true
      · rw [if_pos h12] at h
        obtain ⟨hsep, hrl⟩ := Bool.and_eq_true_iff.mp h12
        match rest with
        | [] => cases h
        | c :: t =>
          dsimp only at h
          by_cases hc : c = '_'
          · rw [if_pos hc] at h
            match t with
            | [] => cases h
            | d0 :: t2 =>
              dsimp only at h
              by_cases hcond : (isD12 d0 && tailOk t2) = true
              · rw [if_pos hcond] at h
                obtain ⟨hd12, htail⟩ := Bool.and_eq_true_iff.mp hcond
                injection h with h1
                obtain ⟨rfl, rfl⟩ := Prod.mk.injEq c2 d0 le d |>.mp h1
                subst hc
                exact ⟨isRL_iff.mp hrl, isD12_iff.mp hd12,
                  c1, t2, isSep_iff.mp hsep, Or.inr rfl, tailOk_iff.mp htail⟩
              · rw [if_neg hcond] at h; cases h
          · rw [if_neg hc] at h
            by_cases hcond : (isD12 c && tailOk t) = true
            · rw [if_pos hcond] at h
              obtain ⟨hd12, htail⟩ := Bool.and_eq_true_iff.mp hcond
              injection h with h1
              obtain ⟨rfl, rfl⟩ := Prod.mk.injEq c2 c le d |>.mp h1
              exact ⟨isRL_iff.mp hrl, isD12_iff.mp hd12,
                c1, t, isSep_iff.mp hsep, Or.inl rfl, tailOk_iff.mp htail⟩
            · rw [if_neg hcond] at h; cases h
      · rw [if_neg h12] at h; cases h
  · rintro ⟨hle, hd, sep, rest, hsep, hm, htail⟩
    have hsep' : isSep sep = true := isSep_iff.mpr hsep
    have hle' : isRL le = true := isRL_iff.mpr hle
    have hd' : isD12 d = true := isD12_iff.mpr hd
    have htail' : tailOk rest = true := tailOk_iff.mpr htail
    have hdu : d ≠ '_' := by rcases hd with rfl | rfl <;> decide
    rcases hm with rfl | rfl
    · simp only [matchHere, hsep', hle', Bool.and_self, if_true, if_neg hdu, hd',
        htail', if_pos]
    · simp only [matchHere, hsep', hle', Bool.and_self, if_true, if_pos rfl, hd',
        htail', Bool.and_self]

/-- C2: `detect_read` succeeds exactly on filenames containing a
read-direction token of the specified shape; on success it returns the
lowercase-normalized read of the leftmost token and the part of the
filename strictly before that token. -/
theorem claim_C2 (f : String) :
    (∀ r p, detect_read f = some (r, p) ↔
      ∃ i le d, SpecToken (f.data.drop i) le d ∧
        (∀ j le' d', j < i → ¬ SpecToken (f.data.drop j) le' d') ∧
        r = String.mk ['r', d] ∧ p = String.mk (f.data.take i)) ∧
    (detect_read f = none ↔ ∀ i le d, ¬ SpecToken (f.data.drop i) le d) := by
  constructor
  · intro r p
    constructor
    · intro h
      unfold detect_read at h
      cases hfh : firstHit matchHere f.data with
      | none => rw [hfh] at h; cases h
      | some ib =>
        obtain ⟨i, le, d⟩ := ib
        rw [hfh] at h
        dsimp only at h
        injection h with h1
        obtain ⟨hr, hp⟩ := Prod.mk.injEq _ _ _ _ |>.mp h1
        obtain ⟨hmh, hleft⟩ := firstHit_eq_some_iff.mp hfh
        have hst := matchHere_eq_some_iff.mp hmh
        refine ⟨i, le, d, hst, ?_, ?_, ?_⟩
        · intro j le' d' hj hst'
          have hsome := matchHere_eq_some_iff.mpr hst'
          rw [hleft j hj] at hsome; cases hsome
        · rw [← hr, toLower_of_rR hst.1]
        · exact hp.symm
    · rintro ⟨i, le, d, hst, hleft, hr, hp⟩
      have hmh := matchHere_eq_some_iff.mpr hst
      have hnone : ∀ j, j < i → matchHere (f.data.drop j) = none := by
        intro j hj
        cases hmj : matchHere (f.data.drop j) with
        | none => rfl
        | some ld =>
          obtain ⟨a, b⟩ := ld
          exact absurd (matchHere_eq_some_iff.mp hmj) (hleft j a b hj)
      have hfh : firstHit matchHere f.data = some (i, (le, d)) :=
        firstHit_eq_some_iff.mpr ⟨hmh, hnone⟩
      unfold detect_read
      rw [hfh]
      dsimp only
      rw [hr, hp, toLower_of_rR hst.1]
  · constructor
    · intro h i le d hst
      unfold detect_read at h
      cases hfh : firstHit matchHere f.data with
      | some ib =>
        obtain ⟨i', le', d'⟩ := ib
        rw [hfh] at h
        dsimp only at h
        cases h
      | none =>
        have hmn := firstHit_eq_none_iff.mp hfh i
        rw [matchHere_eq_some_iff.mpr hst] at hmn
        cases hmn
    · intro h
      unfold detect_read
      cases hfh : firstHit matchHere f.data with
      | none => rfl
      | some ib =>
        obtain ⟨i, le, d⟩ := ib
        obtain ⟨hmh, _⟩ := firstHit_eq_some_iff.mp hfh
        exact absurd (matchHere_eq_some_iff.mp hmh) (h i le d)

/-- Witness for C2 at a concrete filename: `sample_R1.fq.gz` parses to
read `r1` with key material `sample`. -/
theorem claim_C2_witness :
    ∃ i le d, SpecToken ((("sample_R1.fq.gz" : String)).data.drop i) le d ∧
      (∀ j le' d', j < i → ¬ SpecToken ((("sample_R1.fq.gz" : String)).data.drop j) le' d') ∧
      ("r1" : String) = String.mk ['r', d] ∧
      ("sample" : String) = String.mk ((("sample_R1.fq.gz" : String)).data.take i) :=
  ((claim_C2 "sample_R1.fq.gz").1 "r1" "sample").mp (by decide)

/-- C7: the prefix-mode output namer is total on the reads `r1`/`r2` for
every key and every style, and formats the read label according to the
style table. -/
theorem claim_C7 (key : String) (style : ReadStyle) :
    outname key "r1" style = some (key ++ "_" ++ specLabel1 style ++ ".fq.gz") ∧
    outname key "r2" style = some (key ++ "_" ++ specLabel2 style ++ ".fq.gz") := by
  cases style <;> exact ⟨rfl, rfl⟩

/-! ## Lemmas: group aggregation -/

theorem detect_read_shape {s : String} {r p : String}
    (h : detect_read s = some (r, p)) :
    ∃ d, (d = '1' ∨ d = '2') ∧ r = String.mk ['r', d] := by
  unfold detect_read at h
  cases hfh : firstHit matchHere s.data with
  | none => rw [hfh] at h; cases h
  | some ib =>
    obtain ⟨i, le, d⟩ := ib
    rw [hfh] at h
    dsimp only at h
    injection h with h1
    obtain ⟨hr, _⟩ := Prod.mk.injEq _ _ _ _ |>.mp h1
    obtain ⟨hmh, _⟩ := firstHit_eq_some_iff.mp hfh
    have hst := matchHere_eq_some_iff.mp hmh
    exact ⟨d, hst.2.1, by rw [← hr, toLower_of_rR hst.1]⟩

theorem format_read_mk_r (d : Char) (style : ReadStyle) :
    format_read (String.mk ['r', d]) style = some (String.mk (styledData style d)) := by
  cases style with
  | r => rfl
  | R =>
    show some (strUpper (String.mk ['r', d])) = _
    unfold strUpper
    have h : 'r'.toUpper = 'R' := by decide
    simp [styledData, h]
  | r_ => rfl
  | R_ =>
    show some (String.mk ['r'.toUpper, '_', d]) = _
    have h : 'r'.toUpper = 'R' := by decide
    simp [styledData, h]

theorem groupStep_eq_of_none {mode : GroupMode} {style : ReadStyle}
    {gs : List ((String × String) × GroupInfo)} {f : String}
    (h : keyOf mode f = none) :
    groupStep mode style gs f = gs := by
  unfold keyOf at h
  dsimp only [groupStep]
  cases hd : detect_read (basename f) with
  | none => rfl
  | some rp =>
    obtain ⟨read, pre⟩ := rp
    rw [hd] at h
    cases mode <;> dsimp only at h <;> cases h

theorem groupStep_eq_of_some {mode : GroupMode} {style : ReadStyle}
    {gs : List ((String × String) × GroupInfo)} {f : String} {k : String × String}
    (h : keyOf mode f = some k) :
    ∃ out, groupStep mode style gs f = updateGroups gs k f out := by
  unfold keyOf at h
  dsimp only [groupStep]
  cases hd : detect_read (basename f) with
  | none => rw [hd] at h; cases h
  | some rp =>
    obtain ⟨read, pre⟩ := rp
    rw [hd] at h
    obtain ⟨d, _, hr⟩ := detect_read_shape hd
    cases mode with
    | exactMode =>
      dsimp only at h ⊢
      injection h with h1
      exact ⟨exactOutName (basename f), by rw [h1]⟩
    | preMode =>
      dsimp only at h ⊢
      injection h with h1
      have hfr : format_read read style = some (String.mk (styledData style d)) := by
        rw [hr]; exact format_read_mk_r d style
      refine ⟨pre ++ "_" ++ String.mk (styledData style d) ++ ".fq.gz", ?_⟩
      rw [hfr]
      dsimp only
      rw [h1]

theorem updateGroups_map_fst (gs : List ((String × String) × GroupInfo))
    (k : String × String) (f out : String) :
    (updateGroups gs k f out).map Prod.fst =
      if k ∈ gs.map Prod.fst then gs.map Prod.fst else gs.map Prod.fst ++ [k] := by
  induction gs with
  | nil => simp [updateGroups]
  | cons e rest ih =>
    obtain ⟨k', gi⟩ := e
    simp only [updateGroups]
    by_cases hk : k' = k
    · subst hk
      simp
    · rw [if_neg hk]
      simp only [List.map_cons, ih]
      by_cases hmem : k ∈ rest.map Prod.fst
      · rw [if_pos hmem, if_pos (by simp [hmem])]
      · rw [if_neg hmem,
          if_neg (by simp only [List.mem_cons]; rintro (rfl | hc) <;> simp_all)]
        simp

theorem updateGroups_nodup {gs : List ((String × String) × GroupInfo)}
    {k : String × String} {f out : String}
    (h : (gs.map Prod.fst).Nodup) :
    ((updateGroups gs k f out).map Prod.fst).Nodup := by
  rw [updateGroups_map_fst]
  by_cases hmem : k ∈ gs.map Prod.fst
  · rwa [if_pos hmem]
  · rw [if_neg hmem]
    simp [List.nodup_append, h, hmem]

theorem updateGroups_flatten (gs : List ((String × String) × GroupInfo))
    (k : String × String) (f out : String) :
    List.Perm ((updateGroups gs k f out).map (fun e => e.2.files)).flatten
      (((gs.map fun e => e.2.files).flatten) ++ [f]) := by
  induction gs with
  | nil => simp [updateGroups]
  | cons e rest ih =>
    obtain ⟨k', gi⟩ := e
    simp only [updateGroups]
    by_cases hk : k' = k
    · rw [if_pos hk]
      simp only [List.map_cons, List.flatten_cons]
      rw [List.append_assoc gi.files [f] ((rest.map fun e => e.2.files).flatten),
        List.append_assoc gi.files ((rest.map fun e => e.2.files).flatten) [f]]
      exact List.Perm.append_left _ List.perm_append_comm
    · rw [if_neg hk]
      simp only [List.map_cons, List.flatten_cons]
      rw [List.append_assoc gi.files ((rest.map fun e => e.2.files).flatten) [f]]
      exact List.Perm.append_left _ ih

theorem updateGroups_consistent {mode : GroupMode}
    {gs : List ((String × String) × GroupInfo)} {k : String × String} {f out : String}
    (hgs : ∀ e ∈ gs, ∀ x ∈ e.2.files, keyOf mode x = some e.1)
    (hf : keyOf mode f = some k) :
    ∀ e ∈ updateGroups gs k f out, ∀ x ∈ e.2.files, keyOf mode x = some e.1 := by
  induction gs with
  | nil =>
    intro e he x hx
    simp only [updateGroups, List.mem_singleton] at he
    subst he
    simp only [List.mem_singleton] at hx
    subst hx
    exact hf
  | cons e0 rest ih =>
    obtain ⟨k', gi⟩ := e0
    intro e he x hx
    simp only [updateGroups] at he
    by_cases hk : k' = k
    · rw [if_pos hk] at he
      subst hk
      rcases List.mem_cons.mp he with rfl | hmem
      · rcases List.mem_append.mp hx with hx1 | hx2
        · exact hgs (k', gi) (List.mem_cons_self _ _) x hx1
        · simp only [List.mem_singleton] at hx2
          subst hx2
          exact hf
      · exact hgs e (List.mem_cons_of_mem _ hmem) x hx
    · rw [if_neg hk] at he
      rcases List.mem_cons.mp he with rfl | hmem
      · exact hgs _ (List.mem_cons_self _ _) x hx
      · exact ih (fun e' he' => hgs e' (List.mem_cons_of_mem _ he')) e hmem x hx

theorem foldl_groupStep_nodup (mode : GroupMode) (style : ReadStyle) :
    ∀ (files : List String) (gs : List ((String × String) × GroupInfo)),
      (gs.map Prod.fst).Nodup →
      ((files.foldl (groupStep mode style) gs).map Prod.fst).Nodup := by
  intro files
  induction files with
  | nil => intro gs h; simpa using h
  | cons f rest ih =>
    intro gs h
    simp only [List.foldl_cons]
    cases hk : keyOf mode f with
    | none => rw [groupStep_eq_of_none hk]; exact ih gs h
    | some k =>
      obtain ⟨out, hstep⟩ := @groupStep_eq_of_some mode style gs f k hk
      rw [hstep]
      exact ih _ (updateGroups_nodup h)

theorem foldl_groupStep_consistent (mode : GroupMode) (style : ReadStyle) :
    ∀ (files : List String) (gs : List ((String × String) × GroupInfo)),
      (∀ e ∈ gs, ∀ x ∈ e.2.files, keyOf mode x = some e.1) →
      ∀ e ∈ files.foldl (groupStep mode style) gs, ∀ x ∈ e.2.files,
        keyOf mode x = some e.1 := by
  intro files
  induction files with
  | nil => intro gs h; simpa using h
  | cons f rest ih =>
    intro gs h
    simp only [List.foldl_cons]
    cases hk : keyOf mode f with
    | none => rw [groupStep_eq_of_none hk]; exact ih gs h
    | some k =>
      obtain ⟨out, hstep⟩ := @groupStep_eq_of_some mode style gs f k hk
      rw [hstep]
      exact ih _ (updateGroups_consistent h hk)

theorem foldl_groupStep_flatten (mode : GroupMode) (style : ReadStyle) :
    ∀ (files : List String) (gs : List ((String × String) × GroupInfo)),
      List.Perm
        (((files.foldl (groupStep mode style) gs).map fun e => e.2.files).flatten)
        (((gs.map fun e => e.2.files).flatten) ++
          files.filter (fun f => (keyOf mode f).isSome)) := by
  intro files
  induction files with
  | nil => intro gs; simp
  | cons f rest ih =>
    intro gs
    simp only [List.foldl_cons, List.filter_cons]
    cases hk : keyOf mode f with
    | none =>
      rw [groupStep_eq_of_none hk]
      simp only [Option.isSome_none, Bool.false_eq_true, if_false]
      exact ih gs
    | some k =>
      obtain ⟨out, hstep⟩ := @groupStep_eq_of_some mode style gs f k hk
      rw [hstep]
      simp only [Option.isSome_some, if_true]
      have h1 := ih (updateGroups gs k f out)
      have h2 := List.Perm.append_right
        (rest.filter fun f => (keyOf mode f).isSome) (updateGroups_flatten gs k f out)
      have h3 := h1.trans h2
      rw [List.append_assoc] at h3
      have h4 : [f] ++ rest.filter (fun f => (keyOf mode f).isSome) =
          f :: rest.filter (fun f => (keyOf mode f).isSome) := rfl
      rwa [h4] at h3

theorem aggregate_nodup (mode : GroupMode) (style : ReadStyle) (files : List String) :
    ((aggregate mode style files).map Prod.fst).Nodup :=
  foldl_groupStep_nodup mode style files [] (by simp)

theorem aggregate_consistent (mode : GroupMode) (style : ReadStyle) (files : List String) :
    ∀ e ∈ aggregate mode style files, ∀ x ∈ e.2.files, keyOf mode x = some e.1 :=
  foldl_groupStep_consistent mode style files [] (by simp)

theorem aggregate_flatten (mode : GroupMode) (style : ReadStyle) (files : List String) :
    List.Perm (((aggregate mode style files).map fun e => e.2.files).flatten)
      (files.filter fun f => (keyOf mode f).isSome) := by
  have h := foldl_groupStep_flatten mode style files []
  simpa using h

theorem aggregate_mem_exists {mode : GroupMode} {style : ReadStyle}
    {files : List String} {f : String} {k : String × String}
    (hf : f ∈ files) (hk : keyOf mode f = some k) :
    ∃ e, e ∈ aggregate mode style files ∧ f ∈ e.2.files ∧ e.1 = k := by
  have hmem : f ∈ (((aggregate mode style files).map fun e => e.2.files).flatten) := by
    rw [(aggregate_flatten mode style files).mem_iff]
    exact List.mem_filter.mpr ⟨hf, by rw [hk]; rfl⟩
  obtain ⟨l, hl, hfl⟩ := List.mem_flatten.mp hmem
  obtain ⟨e, he, hle⟩ := List.mem_map.mp hl
  refine ⟨e, he, by rwa [hle], ?_⟩
  have := aggregate_consistent mode style files e he f (by rwa [hle])
  rw [hk] at this
  injection this with h1
  exact h1.symm

theorem aggregate_entry_unique {mode : GroupMode} {style : ReadStyle}
    {files : List String} {e1 e2 : (String × String) × GroupInfo}
    (h1 : e1 ∈ aggregate mode style files) (h2 : e2 ∈ aggregate mode style files)
    (hk : e1.1 = e2.1) : e1 = e2 :=
  List.inj_on_of_nodup_map (aggregate_nodup mode style files) h1 h2 hk

/-- C1 (counterexample to the claim as stated): in ci_fastq_concat.py the
group membership test `fq.startswith(group_name)` is prefix-based, so with
inputs `A_r1_FC_s1.fq.gz` and `A_r1_FC_X_s1.fq.gz` (group names `A_r1` and
`A_r1_FC`, one a prefix of the other) every file belongs to both planned
groups: grouping is not a partition. -/
theorem claim_C1_counterexample :
    ((ciPlanned ["A_r1_FC_s1.fq.gz", "A_r1_FC_X_s1.fq.gz"]).map fun t => (t.2.1, t.1)) =
      [("A_r1.fq.gz", ["A_r1_FC_X_s1.fq.gz", "A_r1_FC_s1.fq.gz"]),
       ("A_r1_FC.fq.gz", ["A_r1_FC_X_s1.fq.gz", "A_r1_FC_s1.fq.gz"])] ∧
    (ciPlanned ["A_r1_FC_s1.fq.gz", "A_r1_FC_X_s1.fq.gz"]).length = 2 := by
  constructor
  · decide
  · decide

/-- C1 (amended): the dictionary-keyed grouping of general_fastq_concat.py
is a partition of the derivable input files, in both grouping modes: group
keys are pairwise distinct; every member of a group has that group's key;
the concatenation of all member lists is a permutation of the input list
restricted to the files whose key is derivable; a derivable input file
belongs to exactly one group; and two files with the same (key, read) pair
always land in the same group. -/
theorem claim_C1_amended (mode : GroupMode) (style : ReadStyle) (files : List String) :
    ((aggregate mode style files).map Prod.fst).Nodup ∧
    (∀ e ∈ aggregate mode style files, ∀ x ∈ e.2.files, keyOf mode x = some e.1) ∧
    List.Perm (((aggregate mode style files).map fun e => e.2.files).flatten)
      (files.filter fun f => (keyOf mode f).isSome) ∧
    (∀ f k, f ∈ files → keyOf mode f = some k →
      ∃ e, e ∈ aggregate mode style files ∧ f ∈ e.2.files ∧
        ∀ e', e' ∈ aggregate mode style files → f ∈ e'.2.files → e' = e) ∧
    (∀ f g k, f ∈ files → g ∈ files →
      keyOf mode f = some k → keyOf mode g = some k →
      ∃ e, e ∈ aggregate mode style files ∧ f ∈ e.2.files ∧ g ∈ e.2.files) := by
  refine ⟨aggregate_nodup mode style files, aggregate_consistent mode style files,
    aggregate_flatten mode style files, ?_, ?_⟩
  · intro f k hf hk
    obtain ⟨e, he, hfe, hek⟩ := @aggregate_mem_exists mode style files f k hf hk
    refine ⟨e, he, hfe, ?_⟩
    intro e' he' hfe'
    have hk' := aggregate_consistent mode style files e' he' f hfe'
    rw [hk] at hk'
    injection hk' with h1
    exact aggregate_entry_unique he' he (by rw [← h1, hek])
  · intro f g k hf hg hkf hkg
    obtain ⟨e, he, hfe, hek⟩ := @aggregate_mem_exists mode style files f k hf hkf
    obtain ⟨e', he', hge', hek'⟩ := @aggregate_mem_exists mode style files g k hg hkg
    have : e' = e := aggregate_entry_unique he' he (by rw [hek', hek])
    subst this
    exact ⟨e', he, hfe, hge'⟩

/-- Witness for C1 (amended) at concrete inputs: the two paths
`a/s_r1.fq.gz` and `b/s_r1.fq.gz` share the exact-mode key
`(s_r1.fq.gz, r1)` and land in the same group. -/
theorem claim_C1_amended_witness :
    ∃ e, e ∈ aggregate GroupMode.exactMode ReadStyle.r
        ["a/s_r1.fq.gz", "b/s_r1.fq.gz"] ∧
      "a/s_r1.fq.gz" ∈ e.2.files ∧ "b/s_r1.fq.gz" ∈ e.2.files :=
  (claim_C1_amended GroupMode.exactMode ReadStyle.r
      ["a/s_r1.fq.gz", "b/s_r1.fq.gz"]).2.2.2.2
    "a/s_r1.fq.gz" "b/s_r1.fq.gz" ("s_r1.fq.gz", "r1")
    (by decide) (by decide) (by decide) (by decide)

/-- C8: a file whose read pattern is not recognized is skipped (the run
continues on the rest of the list unchanged) and contributes to no group of
any run. -/
theorem claim_C8 (mode : GroupMode) (style : ReadStyle) (l1 l2 : List String)
    (f : String) (h : detect_read (basename f) = none) :
    aggregate mode style (l1 ++ f :: l2) = aggregate mode style (l1 ++ l2) ∧
    ∀ files : List String, ∀ e ∈ aggregate mode style files, f ∉ e.2.files := by
  have hk : keyOf mode f = none := by unfold keyOf; rw [h]
  constructor
  · unfold aggregate
    rw [List.foldl_append, List.foldl_append, List.foldl_cons,
      groupStep_eq_of_none hk]
  · intro files e he hf
    have hc := aggregate_consistent mode style files e he f hf
    rw [hk] at hc
    cases hc

/-- Witness for C8: `weird_name.fq.gz` has no read token; grouping the list
with and without it gives the same groups. -/
theorem claim_C8_witness :
    detect_read (basename "weird_name.fq.gz") = none ∧
    aggregate GroupMode.preMode ReadStyle.r
        (["a_r1.fq.gz"] ++ "weird_name.fq.gz" :: ["a_r2.fq.gz"]) =
      aggregate GroupMode.preMode ReadStyle.r (["a_r1.fq.gz"] ++ ["a_r2.fq.gz"]) :=
  ⟨by decide,
   (claim_C8 GroupMode.preMode ReadStyle.r ["a_r1.fq.gz"] ["a_r2.fq.gz"]
      "weird_name.fq.gz" (by decide)).1⟩

/-! ## Lemmas: the sort used for task inputs -/

theorem lexLe_total : ∀ a b : List Char, lexLe a b = true ∨ lexLe b a = true := by
  intro a
  induction a with
  | nil => intro b; left; rfl
  | cons x xs ih =>
    intro b
    cases b with
    | nil => right; rfl
    | cons y ys =>
      by_cases hxy : x = y
      · subst hxy
        simpa [lexLe] using ih ys
      · rcases lt_or_gt_of_ne hxy with hlt | hgt
        · left
          simp only [lexLe, if_neg hxy]
          exact decide_eq_true hlt
        · right
          have hyx : ¬y = x := fun h => hxy h.symm
          simp only [lexLe, if_neg hyx]
          exact decide_eq_true hgt

theorem lexLe_trans : ∀ a b c : List Char,
    lexLe a b = true → lexLe b c = true → lexLe a c = true := by
  intro a
  induction a with
  | nil => intro b c _ _; rfl
  | cons x xs ih =>
    intro b c hab hbc
    cases b with
    | nil => simp [lexLe] at hab
    | cons y ys =>
      cases c with
      | nil => simp [lexLe] at hbc
      | cons z zs =>
        simp only [lexLe] at hab hbc ⊢
        by_cases hxy : x = y
        · subst hxy
          rw [if_pos rfl] at hab
          by_cases hyz : x = z
          · subst hyz
            rw [if_pos rfl] at hbc
            rw [if_pos rfl]
            exact ih ys zs hab hbc
          · rw [if_neg hyz] at hbc
            rw [if_neg hyz]
            exact hbc
        · rw [if_neg hxy] at hab
          by_cases hyz : y = z
          · subst hyz
            rw [if_neg hxy]
            exact hab
          · rw [if_neg hyz] at hbc
            have hxz : x < z := lt_trans (of_decide_eq_true hab) (of_decide_eq_true hbc)
            rw [if_neg (ne_of_lt hxz)]
            exact decide_eq_true hxz

theorem lexLe_antisymm : ∀ a b : List Char,
    lexLe a b = true → lexLe b a = true → a = b := by
  intro a
  induction a with
  | nil =>
    intro b _ hba
    cases b with
    | nil => rfl
    | cons y ys => simp [lexLe] at hba
  | cons x xs ih =>
    intro b hab hba
    cases b with
    | nil => simp [lexLe] at hab
    | cons y ys =>
      simp only [lexLe] at hab hba
      by_cases hxy : x = y
      · subst hxy
        rw [if_pos rfl] at hab hba
        rw [ih ys hab hba]
      · rw [if_neg hxy] at hab
        rw [if_neg (fun h => hxy h.symm)] at hba
        exact absurd (of_decide_eq_true hba) (not_lt_of_lt (of_decide_eq_true hab))

instance : IsTotal String strLe := ⟨fun a b => lexLe_total a.data b.data⟩

instance : IsTrans String strLe := ⟨fun a b c => lexLe_trans a.data b.data c.data⟩

instance : IsAntisymm String strLe :=
  ⟨fun a b h1 h2 => String.ext (lexLe_antisymm a.data b.data h1 h2)⟩

theorem sortStrings_perm (l : List String) : List.Perm (sortStrings l) l :=
  List.perm_insertionSort strLe l

theorem sortStrings_sorted (l : List String) : List.Sorted strLe (sortStrings l) :=
  List.sorted_insertionSort strLe l

theorem sortStrings_eq_of_perm {l1 l2 : List String} (h : List.Perm l1 l2) :
    sortStrings l1 = sortStrings l2 :=
  List.eq_of_perm_of_sorted
    ((sortStrings_perm l1).trans (h.trans (sortStrings_perm l2).symm))
    (sortStrings_sorted l1) (sortStrings_sorted l2)

/-! ## Lemmas: execution planning -/

theorem planGroups_foldl (outdir : String) (style : ReadStyle) :
    ∀ (gs : List ((String × String) × GroupInfo)) (init : PlanResult),
      (gs.foldl (planStep outdir style) init).singles =
        init.singles ++ (gs.filter fun e => e.2.files.length == 1).map
          (fun e => (e.2.outfile_name, e.2.files.headD "")) ∧
      (gs.foldl (planStep outdir style) init).tasks =
        init.tasks ++ (gs.filter fun e => !(e.2.files.length == 1)).map
          (fun e => (pathJoin outdir (reformat_out e.2.outfile_name style),
            e.2.files, reformat_out e.2.outfile_name style)) := by
  intro gs
  induction gs with
  | nil => intro init; simp
  | cons e rest ih =>
    intro init
    simp only [List.foldl_cons, List.filter_cons]
    by_cases hlen : e.2.files.length = 1
    · have hb : (e.2.files.length == 1) = true := beq_iff_eq.mpr hlen
      rw [hb]
      obtain ⟨ihs, iht⟩ := ih (planStep outdir style init e)
      have hstep : planStep outdir style init e =
          ⟨init.singles ++ [(e.2.outfile_name, e.2.files.headD "")], init.tasks⟩ := by
        unfold planStep
        rw [if_pos hlen]
      rw [hstep] at ihs iht
      constructor
      · rw [hstep, ihs]
        simp [List.append_assoc]
      · rw [hstep, iht]
        simp
    · have hb : (e.2.files.length == 1) = false := by
        simp [hlen]
      rw [hb]
      obtain ⟨ihs, iht⟩ := ih (planStep outdir style init e)
      have hstep : planStep outdir style init e =
          ⟨init.singles,
           init.tasks ++ [(pathJoin outdir (reformat_out e.2.outfile_name style),
             e.2.files, reformat_out e.2.outfile_name style)]⟩ := by
        unfold planStep
        rw [if_neg hlen]
      rw [hstep] at ihs iht
      constructor
      · rw [hstep, ihs]
        simp
      · rw [hstep, iht]
        simp [List.append_assoc]

/-- C3 (counterexample to the claim as stated): in ci_fastq_concat.py a
group of size exactly 1 still yields a planned concatenation task (executed
by `call` when dry-run is off), not a skipped singleton report. -/
theorem claim_C3_counterexample :
    ciPlanned ["A_r1_FC_s1.fq.gz"] =
      [(["A_r1_FC_s1.fq.gz"], "A_r1.fq.gz", "cat A_r1_FC_s1.fq.gz > A_r1.fq.gz")] ∧
    (ciPlanned ["A_r1_FC_s1.fq.gz"]).length = 1 := by
  constructor
  · decide
  · decide

/-- C3 (amended): in general_fastq_concat.py, over groups with at least one
member, planning sends every group of size exactly 1 to the singleton
report (and to no task) and every group of size at least 2 to exactly one
task; a task's concatenation command lists its inputs sorted
lexicographically, and sorting is insensitive to the presentation order of
the file set. -/
theorem claim_C3_amended (outdir : String) (style : ReadStyle)
    (gs : List ((String × String) × GroupInfo))
    (h : ∀ e ∈ gs, e.2.files ≠ []) :
    (planGroups outdir style gs).singles =
      (gs.filter fun e => e.2.files.length == 1).map
        (fun e => (e.2.outfile_name, e.2.files.headD "")) ∧
    (planGroups outdir style gs).tasks =
      (gs.filter fun e => decide (2 ≤ e.2.files.length)).map
        (fun e => (pathJoin outdir (reformat_out e.2.outfile_name style),
          e.2.files, reformat_out e.2.outfile_name style)) ∧
    (∀ t ∈ (planGroups outdir style gs).tasks,
      cmdOfTask t = "cat " ++ joinSep " " (sortStrings t.2.1) ++ " > " ++ t.1) ∧
    (∀ l1 l2 : List String, List.Perm l1 l2 → sortStrings l1 = sortStrings l2) := by
  obtain ⟨hs, ht⟩ := planGroups_foldl outdir style gs ⟨[], []⟩
  have hfilter : (gs.filter fun e => !(e.2.files.length == 1)) =
      (gs.filter fun e => decide (2 ≤ e.2.files.length)) := by
    apply List.filter_congr
    intro e he
    have hne : e.2.files ≠ [] := h e he
    have hlen : 1 ≤ e.2.files.length := List.length_pos.mpr hne
    by_cases h1 : e.2.files.length = 1
    · simp [h1]
    · have h2 : 2 ≤ e.2.files.length := by omega
      simp [h1, h2]
  refine ⟨hs, ?_, ?_, fun l1 l2 hp => sortStrings_eq_of_perm hp⟩
  · unfold planGroups
    rw [ht, hfilter]
    rfl
  · intro t _
    rfl

/-- Witness for C3 (amended) at a concrete group mapping: one two-member
group and one singleton. -/
theorem claim_C3_witness :
    (∀ e ∈ [((("x", "r1") : String × String), (⟨["d/x_r1_b.fq.gz", "c/x_r1_a.fq.gz"], "x_r1.fq.gz"⟩ : GroupInfo)),
            ((("y", "r2") : String × String), (⟨["y_r2.fq.gz"], "y_r2.fq.gz"⟩ : GroupInfo))],
      e.2.files ≠ []) ∧
    ((planGroups "out" ReadStyle.r
        [((("x", "r1") : String × String), (⟨["d/x_r1_b.fq.gz", "c/x_r1_a.fq.gz"], "x_r1.fq.gz"⟩ : GroupInfo)),
         ((("y", "r2") : String × String), (⟨["y_r2.fq.gz"], "y_r2.fq.gz"⟩ : GroupInfo))]).singles =
      [("y_r2.fq.gz", "y_r2.fq.gz")] ∧
     (planGroups "out" ReadStyle.r
        [((("x", "r1") : String × String), (⟨["d/x_r1_b.fq.gz", "c/x_r1_a.fq.gz"], "x_r1.fq.gz"⟩ : GroupInfo)),
         ((("y", "r2") : String × String), (⟨["y_r2.fq.gz"], "y_r2.fq.gz"⟩ : GroupInfo))]).tasks =
      [("out/x_r1.fq.gz", ["d/x_r1_b.fq.gz", "c/x_r1_a.fq.gz"], "x_r1.fq.gz")] ∧
     cmdOfTask ("out/x_r1.fq.gz", ["d/x_r1_b.fq.gz", "c/x_r1_a.fq.gz"], "x_r1.fq.gz") =
      "cat c/x_r1_a.fq.gz d/x_r1_b.fq.gz > out/x_r1.fq.gz") := by
  constructor
  · decide
  · have hmain := claim_C3_amended "out" ReadStyle.r
      [((("x", "r1") : String × String), (⟨["d/x_r1_b.fq.gz", "c/x_r1_a.fq.gz"], "x_r1.fq.gz"⟩ : GroupInfo)),
       ((("y", "r2") : String × String), (⟨["y_r2.fq.gz"], "y_r2.fq.gz"⟩ : GroupInfo))]
      (by decide)
    refine ⟨?_, ?_, ?_⟩
    · rw [hmain.1]; decide
    · rw [hmain.2.1]; decide
    · decide

/-! ## Claims about effect traces -/

/-- C4: with dry-run enabled, the effect trace of general_fastq_concat.py
after planning is empty (no directory creation, no script write, no
submission, no local shell command), and so is the execution trace of
ci_fastq_concat.py; planning itself is embedded as the pure function
`planGroups` and emits no effect in any mode. -/
theorem claim_C4 (lcl outdirExists : Bool) (outdir : String) (style : ReadStyle)
    (gs : List ((String × String) × GroupInfo))
    (planned : List (List String × String × String)) :
    generalEffects true lcl outdirExists outdir style gs = [] ∧
    ciEffects true planned = [] := by
  constructor
  · unfold generalEffects
    have hloop : ∀ e : (String × String) × GroupInfo,
        loopStepEffects true lcl outdir e
          (pathJoin outdir (reformat_out e.2.outfile_name style), e.2.files,
            reformat_out e.2.outfile_name style) = [] := by
      intro e
      unfold loopStepEffects
      by_cases h1 : e.2.files.length = 1
      · rw [if_pos h1]
      · rw [if_neg h1, if_pos rfl]
    simp [hloop]
  · rfl

/-- C6 (counterexample to the claim as stated): in the sequential execution
loop of ci_fastq_concat.py, a first task whose command exits non-zero does
not abort the batch: with an exit oracle failing the first command, the
second command is still invoked (the loop discards the exit status of
`call`). -/
theorem claim_C6_counterexample :
    ciRunLoop (fun c => if c = "cat a > o1" then 1 else 0)
      [(["a"], "o1", "cat a > o1"), (["b"], "o2", "cat b > o2")] =
      [("cat a > o1", 1), ("cat b > o2", 0)] := by
  decide

/-- C6 (amended): the sequential loop of ci_fastq_concat.py invokes every
planned command in order regardless of earlier exit codes (per-task
failures are silently ignored, they never abort the remaining queued
tasks); in parallel-local mode of general_fastq_concat.py the worker pool
executes every queued task and collects one independent result per task;
and in remote mode every non-singleton group's job script is submitted
regardless of the exit status of earlier submissions — a failed submission
cancels no sibling task. -/
theorem claim_C6_amended (exit : String → Nat)
    (planned : List (List String × String × String))
    (tasks : List (String × List String × String))
    (outdir : String) (style : ReadStyle)
    (gs : List ((String × String) × GroupInfo)) :
    (ciRunLoop exit planned).map Prod.fst = planned.map (fun t => t.2.2) ∧
    (poolResults exit tasks).map Prod.snd = tasks.map (fun t => t.2.2) ∧
    poolResults exit tasks = tasks.map (run_concat_local exit) ∧
    (slurmSubmitLoop exit outdir style gs).map Prod.fst =
      (gs.filter fun e => !(e.2.files.length == 1)).map (groupScript outdir style) := by
  refine ⟨?_, ?_, rfl, ?_⟩
  · induction planned with
    | nil => rfl
    | cons t rest ih => simp [ciRunLoop, ih]
  · simp [poolResults, run_concat_local]
  · induction gs with
    | nil => rfl
    | cons e rest ih =>
      by_cases h : e.2.files.length = 1
      · have hb : (e.2.files.length == 1) = true := beq_iff_eq.mpr h
        simp only [slurmSubmitLoop, if_pos h, List.filter_cons, hb, Bool.not_true,
          Bool.false_eq_true, if_false]
        exact ih
      · have hb : (e.2.files.length == 1) = false := by simp [h]
        simp only [slurmSubmitLoop, if_neg h, List.filter_cons, hb, Bool.not_false,
          if_true, List.map_cons]
        rw [ih]

/-- C10: the CSV-driven rename tool is atomic: a non-empty problem list
(malformed row, missing source, existing target) means zero renames; a
dry run means zero renames; and only with no problems and dry-run off are
exactly the planned renames performed. -/
theorem claim_C10 (isFile fileExists : String → Bool)
    (csvs : List (String × List String)) (dryRun : Bool) :
    ((renameScan isFile fileExists csvs).1 ≠ [] →
      renameEffects dryRun (renameScan isFile fileExists csvs) = []) ∧
    (dryRun = true →
      renameEffects dryRun (renameScan isFile fileExists csvs) = []) ∧
    ((renameScan isFile fileExists csvs).1 = [] → dryRun = false →
      renameEffects dryRun (renameScan isFile fileExists csvs) =
        (renameScan isFile fileExists csvs).2.map fun p => Effect.rename p.1 p.2) := by
  unfold renameEffects
  refine ⟨?_, ?_, ?_⟩
  · intro hne
    have hie : (renameScan isFile fileExists csvs).1.isEmpty = false := by
      rw [List.isEmpty_eq_false]
      exact hne
    rw [hie, Bool.and_false, if_neg (by simp)]
  · intro h
    subst h
    simp
  · intro h1 h2
    subst h2
    have hie : (renameScan isFile fileExists csvs).1.isEmpty = true := by
      rw [List.isEmpty_iff]
      exact h1
    rw [hie]
    simp

/-- Witness for C10: with no file present on disk, a one-row CSV produces
missing-source problems and the rename phase performs nothing. -/
theorem claim_C10_witness :
    (renameScan (fun _ => false) (fun _ => false)
        [("SLX1.FC1.s_1.contents.csv", ["header", "1,BC1,SEQ,Samp-A"])]).1 ≠ [] ∧
    renameEffects false
      (renameScan (fun _ => false) (fun _ => false)
        [("SLX1.FC1.s_1.contents.csv", ["header", "1,BC1,SEQ,Samp-A"])]) = [] :=
  ⟨by decide,
   (claim_C10 (fun _ => false) (fun _ => false)
      [("SLX1.FC1.s_1.contents.csv", ["header", "1,BC1,SEQ,Samp-A"])] false).1
     (by decide)⟩

/-! ## Lemmas: the two compressed-read extensions are interchangeable for
the detection pattern (neither contains a digit, and every match needs its
digit) -/

theorem isD12_eq_false_of_not_digit {c : Char} (h : c.isDigit = false) :
    isD12 c = false := by
  cases h12 : isD12 c
  · rfl
  · exfalso
    rcases isD12_iff.mp h12 with rfl | rfl
    · exact absurd h (by decide)
    · exact absurd h (by decide)

theorem matchHere_nodigit : ∀ {l : List Char},
    (∀ c ∈ l, c.isDigit = false) → matchHere l = none := by
  intro l h
  match l with
  | [] => rfl
  | [c1] => rfl
  | c1 :: c2 :: rest =>
    simp only [matchHere]
    by_cases h12 : (isSep c1 && isRL c2) = true
    · rw [if_pos h12]
      match rest with
      | [] => rfl
      | c :: t =>
        dsimp only
        by_cases hc : c = '_'
        · rw [if_pos hc]
          match t with
          | [] => rfl
          | d0 :: t2 =>
            dsimp only
            rw [isD12_eq_false_of_not_digit (h d0 (by simp))]
            rfl
        · rw [if_neg hc]
          rw [isD12_eq_false_of_not_digit (h c (by simp))]
          rfl
    · rw [if_neg h12]

theorem tailOk_append {ext : List Char} (hext : ∀ c ∈ ext, c.isDigit = false) :
    ∀ t, tailOk (t ++ ext) = tailOk t := by
  intro t
  cases t with
  | nil =>
    simp only [List.nil_append]
    cases hx : ext with
    | nil => rfl
    | cons e0 es =>
      have he0 : e0.isDigit = false := hext e0 (by rw [hx]; simp)
      simp [tailOk, he0]
  | cons c cs => rfl

theorem matchHere_append {ext : List Char} (hext : ∀ c ∈ ext, c.isDigit = false) :
    ∀ s : List Char, matchHere (s ++ ext) = matchHere s := by
  have htOk : tailOk ext = true := by
    cases hx : ext with
    | nil => rfl
    | cons e0 es => simp [tailOk, hext e0 (by rw [hx]; simp)]
  intro s
  match s with
  | [] =>
    rw [List.nil_append, matchHere_nodigit hext]
    rfl
  | [c1] =>
    show matchHere (c1 :: ext) = matchHere [c1]
    have hrhs : matchHere [c1] = none := rfl
    rw [hrhs]
    cases hx : ext with
    | nil => rfl
    | cons e0 es =>
      simp only [matchHere]
      by_cases h12 : (isSep c1 && isRL e0) = true
      · rw [if_pos h12]
        cases es with
        | nil => rfl
        | cons e1 t =>
          dsimp only
          by_cases he1 : e1 = '_'
          · rw [if_pos he1]
            cases t with
            | nil => rfl
            | cons e2 t2 =>
              dsimp only
              rw [isD12_eq_false_of_not_digit (hext e2 (by rw [hx]; simp))]
              rfl
          · rw [if_neg he1]
            rw [isD12_eq_false_of_not_digit (hext e1 (by rw [hx]; simp))]
            rfl
      · rw [if_neg h12]
  | [c1, c2] =>
    show matchHere (c1 :: c2 :: ext) = matchHere [c1, c2]
    simp only [matchHere]
    by_cases h12 : (isSep c1 && isRL c2) = true
    · rw [if_pos h12, if_pos h12]
      cases hx : ext with
      | nil => rfl
      | cons e0 es =>
        dsimp only
        by_cases he0 : e0 = '_'
        · rw [if_pos he0]
          cases es with
          | nil => rfl
          | cons e1 t =>
            dsimp only
            rw [isD12_eq_false_of_not_digit (hext e1 (by rw [hx]; simp))]
            rfl
        · rw [if_neg he0]
          rw [isD12_eq_false_of_not_digit (hext e0 (by rw [hx]; simp))]
          rfl
    · rw [if_neg h12, if_neg h12]
  | [c1, c2, c3] =>
    show matchHere (c1 :: c2 :: c3 :: ext) = matchHere [c1, c2, c3]
    simp only [matchHere]
    by_cases h12 : (isSep c1 && isRL c2) = true
    · rw [if_pos h12, if_pos h12]
      by_cases hc3 : c3 = '_'
      · rw [if_pos hc3, if_pos hc3]
        cases hx : ext with
        | nil => rfl
        | cons e0 es =>
          dsimp only
          rw [isD12_eq_false_of_not_digit (hext e0 (by rw [hx]; simp))]
          rfl
      · rw [if_neg hc3, if_neg hc3, htOk]
        rfl
    · rw [if_neg h12, if_neg h12]
  | c1 :: c2 :: c3 :: c4 :: t =>
    show matchHere (c1 :: c2 :: c3 :: c4 :: (t ++ ext)) =
      matchHere (c1 :: c2 :: c3 :: c4 :: t)
    simp only [matchHere]
    by_cases h12 : (isSep c1 && isRL c2) = true
    · rw [if_pos h12, if_pos h12]
      by_cases hc3 : c3 = '_'
      · rw [if_pos hc3, if_pos hc3]
        rw [tailOk_append hext t]
      · rw [if_neg hc3, if_neg hc3]
        rfl
    · rw [if_neg h12, if_neg h12]

theorem firstHit_matchHere_append {ext : List Char}
    (hext : ∀ c ∈ ext, c.isDigit = false) (s : List Char) :
    firstHit matchHere (s ++ ext) = firstHit matchHere s := by
  cases hfh : firstHit matchHere s with
  | some ib =>
    obtain ⟨i, le, d⟩ := ib
    obtain ⟨hm, hleft⟩ := firstHit_eq_some_iff.mp hfh
    have hi : i < s.length := by
      by_contra hge
      push_neg at hge
      rw [List.drop_eq_nil_of_le hge] at hm
      cases hm
    apply firstHit_eq_some_iff.mpr
    constructor
    · rw [List.drop_append_of_le_length (le_of_lt hi), matchHere_append hext]
      exact hm
    · intro j hj
      rw [List.drop_append_of_le_length (le_of_lt (lt_trans hj hi)),
        matchHere_append hext]
      exact hleft j hj
  | none =>
    have hall := firstHit_eq_none_iff.mp hfh
    apply firstHit_eq_none_iff.mpr
    intro i
    by_cases hi : i ≤ s.length
    · rw [List.drop_append_of_le_length hi, matchHere_append hext]
      exact hall i
    · push_neg at hi
      rw [List.drop_append_eq_append_drop, List.drop_eq_nil_of_le (le_of_lt hi),
        List.nil_append]
      exact matchHere_nodigit (fun c hc => hext c (List.mem_of_mem_drop hc))

theorem detect_read_ext_eq (s : String) :
    detect_read (s ++ ".fastq.gz") = detect_read (s ++ ".fq.gz") := by
  have h1 : ∀ c ∈ (".fastq.gz" : String).data, c.isDigit = false := by decide
  have h2 : ∀ c ∈ (".fq.gz" : String).data, c.isDigit = false := by decide
  unfold detect_read
  rw [String.data_append, String.data_append,
    firstHit_matchHere_append h1, firstHit_matchHere_append h2]
  cases hfh : firstHit matchHere s.data with
  | none => rfl
  | some ib =>
    obtain ⟨i, le, d⟩ := ib
    dsimp only
    obtain ⟨hm, _⟩ := firstHit_eq_some_iff.mp hfh
    have hi : i ≤ s.data.length := by
      by_contra hge
      push_neg at hge
      rw [List.drop_eq_nil_of_le (le_of_lt hge)] at hm
      cases hm
    rw [List.take_append_of_le_length hi, List.take_append_of_le_length hi]

theorem takeWhile_append_of_all {p : Char → Bool} {A B : List Char}
    (h : ∀ a ∈ A, p a = true) : (A ++ B).takeWhile p = A ++ B.takeWhile p := by
  induction A with
  | nil => simp
  | cons a as ih =>
    simp only [List.cons_append, List.takeWhile_cons, h a (List.mem_cons_self a as),
      if_true]
    rw [ih (fun x hx => h x (List.mem_cons_of_mem _ hx))]

theorem basename_append {s e : String} (he : ∀ c ∈ e.data, c ≠ '/') :
    basename (s ++ e) = basename s ++ e := by
  apply String.ext
  show (basename (s ++ e)).data = (basename s ++ e).data
  rw [String.data_append]
  simp only [basename, String.data_append, List.reverse_append]
  rw [takeWhile_append_of_all (fun a ha => decide_eq_true (he a (List.mem_reverse.mp ha)))]
  rw [List.reverse_append, List.reverse_reverse]

theorem strEndsWith_append (a b : String) : strEndsWith (a ++ b) b = true := by
  unfold strEndsWith
  rw [String.data_append, List.isSuffixOf_iff_suffix]
  exact List.suffix_append a.data b.data

theorem strEndsWith_iff {s suf : String} :
    strEndsWith s suf = true ↔ ∃ st : String, s = st ++ suf := by
  unfold strEndsWith
  rw [List.isSuffixOf_iff_suffix]
  constructor
  · rintro ⟨t, ht⟩
    refine ⟨String.mk t, ?_⟩
    apply String.ext
    rw [String.data_append]
    exact ht.symm
  · rintro ⟨st, rfl⟩
    exact ⟨st.data, (String.data_append st suf).symm⟩

theorem exactOutName_suffix {base : String}
    (h : (strEndsWith base ".fq.gz" || strEndsWith base ".fastq.gz") = true) :
    strEndsWith (exactOutName base) ".fq.gz" = true := by
  unfold exactOutName
  by_cases hb : strEndsWith base ".fastq.gz" = true
  · rw [if_pos hb]
    exact strEndsWith_append _ _
  · rw [if_neg hb]
    rcases Bool.or_eq_true_iff.mp h with h1 | h2
    · exact h1
    · exact absurd h2 hb

theorem updateGroups_outfile {gs : List ((String × String) × GroupInfo)}
    {k : String × String} {f out : String}
    (hgs : ∀ e ∈ gs, strEndsWith e.2.outfile_name ".fq.gz" = true)
    (hout : strEndsWith out ".fq.gz" = true) :
    ∀ e ∈ updateGroups gs k f out, strEndsWith e.2.outfile_name ".fq.gz" = true := by
  induction gs with
  | nil =>
    intro e he
    simp only [updateGroups, List.mem_singleton] at he
    subst he
    exact hout
  | cons e0 rest ih =>
    obtain ⟨k', gi⟩ := e0
    intro e he
    simp only [updateGroups] at he
    by_cases hk : k' = k
    · rw [if_pos hk] at he
      rcases List.mem_cons.mp he with rfl | hmem
      · exact hout
      · exact hgs _ (List.mem_cons_of_mem _ hmem)
    · rw [if_neg hk] at he
      rcases List.mem_cons.mp he with rfl | hmem
      · exact hgs _ (List.mem_cons_self _ _)
      · exact ih (fun e' he' => hgs e' (List.mem_cons_of_mem _ he')) e hmem

theorem groupStep_outfile {mode : GroupMode} {style : ReadStyle}
    {gs : List ((String × String) × GroupInfo)} {f : String}
    (hf : (strEndsWith f ".fq.gz" || strEndsWith f ".fastq.gz") = true)
    (hgs : ∀ e ∈ gs, strEndsWith e.2.outfile_name ".fq.gz" = true) :
    ∀ e ∈ groupStep mode style gs f, strEndsWith e.2.outfile_name ".fq.gz" = true := by
  dsimp only [groupStep]
  cases hd : detect_read (basename f) with
  | none => exact hgs
  | some rp =>
    obtain ⟨read, pre⟩ := rp
    cases mode with
    | exactMode =>
      dsimp only
      apply updateGroups_outfile hgs
      apply exactOutName_suffix
      rcases Bool.or_eq_true_iff.mp hf with h1 | h2
      · obtain ⟨st, rfl⟩ := strEndsWith_iff.mp h1
        rw [basename_append (by decide)]
        exact Bool.or_eq_true_iff.mpr (Or.inl (strEndsWith_append _ _))
      · obtain ⟨st, rfl⟩ := strEndsWith_iff.mp h2
        rw [basename_append (by decide)]
        exact Bool.or_eq_true_iff.mpr (Or.inr (strEndsWith_append _ _))
    | preMode =>
      dsimp only
      cases hfr : format_read read style with
      | none => exact hgs
      | some fr =>
        apply updateGroups_outfile hgs
        exact strEndsWith_append _ _

theorem foldl_groupStep_outfile (mode : GroupMode) (style : ReadStyle) :
    ∀ (files : List String) (gs : List ((String × String) × GroupInfo)),
      (∀ f ∈ files, (strEndsWith f ".fq.gz" || strEndsWith f ".fastq.gz") = true) →
      (∀ e ∈ gs, strEndsWith e.2.outfile_name ".fq.gz" = true) →
      ∀ e ∈ files.foldl (groupStep mode style) gs,
        strEndsWith e.2.outfile_name ".fq.gz" = true := by
  intro files
  induction files with
  | nil => intro gs _ hgs; simpa using hgs
  | cons f rest ih =>
    intro gs hfs hgs
    simp only [List.foldl_cons]
    exact ih _ (fun x hx => hfs x (List.mem_cons_of_mem _ hx))
      (groupStep_outfile (hfs f (List.mem_cons_self _ _)) hgs)

theorem keyOf_pre_ext (f : String) :
    keyOf GroupMode.preMode (f ++ ".fastq.gz") = keyOf GroupMode.preMode (f ++ ".fq.gz") := by
  unfold keyOf
  rw [basename_append (by decide), basename_append (by decide), detect_read_ext_eq]

/-- C5 (counterexample to the claim as stated): in the exact grouping mode
of general_fastq_concat.py the grouping key is the raw basename, so
`s_r1.fastq.gz` and `s_r1.fq.gz` (same name up to the extension spelling)
fall into two different groups; only the stored output name is
normalized. -/
theorem claim_C5_counterexample :
    aggregate GroupMode.exactMode ReadStyle.r ["s_r1.fastq.gz", "s_r1.fq.gz"] =
      [(("s_r1.fastq.gz", "r1"), ⟨["s_r1.fastq.gz"], "s_r1.fq.gz"⟩),
       (("s_r1.fq.gz", "r1"), ⟨["s_r1.fq.gz"], "s_r1.fq.gz"⟩)] ∧
    keyOf GroupMode.exactMode "s_r1.fastq.gz" ≠ keyOf GroupMode.exactMode "s_r1.fq.gz" := by
  constructor
  · decide
  · decide

/-- C5 (amended): `.fastq.gz` and `.fq.gz` are interchangeable for read
detection and hence for the prefix-mode grouping key, so in prefix mode the
two spellings of the same name land in the same group; and under the
script's input suffix check every stored output name ends in `.fq.gz` (in
both modes).  In exact mode, however, the grouping key keeps the original
extension, so the two spellings fall into different groups there. -/
theorem claim_C5_amended :
    (∀ s : String, detect_read (s ++ ".fastq.gz") = detect_read (s ++ ".fq.gz")) ∧
    (∀ f : String, keyOf GroupMode.preMode (f ++ ".fastq.gz") =
      keyOf GroupMode.preMode (f ++ ".fq.gz")) ∧
    (∀ (style : ReadStyle) (files : List String) (s : String) (k : String × String),
      (s ++ ".fastq.gz") ∈ files → (s ++ ".fq.gz") ∈ files →
      keyOf GroupMode.preMode (s ++ ".fastq.gz") = some k →
      ∃ e, e ∈ aggregate GroupMode.preMode style files ∧
        (s ++ ".fastq.gz") ∈ e.2.files ∧ (s ++ ".fq.gz") ∈ e.2.files) ∧
    (∀ (mode : GroupMode) (style : ReadStyle) (files : List String),
      (∀ f ∈ files, (strEndsWith f ".fq.gz" || strEndsWith f ".fastq.gz") = true) →
      ∀ e ∈ aggregate mode style files, strEndsWith e.2.outfile_name ".fq.gz" = true) := by
  refine ⟨detect_read_ext_eq, keyOf_pre_ext, ?_, ?_⟩
  · intro style files s k h1 h2 hk
    have hk2 : keyOf GroupMode.preMode (s ++ ".fq.gz") = some k := by
      rw [← keyOf_pre_ext]
      exact hk
    obtain ⟨e, he, hfe, hek⟩ := @aggregate_mem_exists GroupMode.preMode style files _ k h1 hk
    obtain ⟨e', he', hge', hek'⟩ := @aggregate_mem_exists GroupMode.preMode style files _ k h2 hk2
    have heq : e' = e := aggregate_entry_unique he' he (by rw [hek', hek])
    subst heq
    exact ⟨e', he', hfe, hge'⟩
  · intro mode style files hfs
    exact foldl_groupStep_outfile mode style files [] hfs (by simp)

/-- Witness for C5 (amended): with both spellings of `s_r1` in the input,
prefix-mode grouping puts them into one group. -/
theorem claim_C5_witness :
    keyOf GroupMode.preMode ("s_r1" ++ ".fastq.gz") = some ("s", "r1") ∧
    (∃ e, e ∈ aggregate GroupMode.preMode ReadStyle.r
        ["s_r1" ++ ".fastq.gz", "s_r1" ++ ".fq.gz"] ∧
      ("s_r1" ++ ".fastq.gz") ∈ e.2.files ∧ ("s_r1" ++ ".fq.gz") ∈ e.2.files) :=
  ⟨by decide,
   claim_C5_amended.2.2.1 ReadStyle.r ["s_r1" ++ ".fastq.gz", "s_r1" ++ ".fq.gz"]
     "s_r1" ("s", "r1") (by decide) (by decide) (by decide)⟩

/-! ## Lemmas: the read-label alternation and the reformatting pass -/

theorem labelHere_some {x m : List Char} (h : labelHere x = some m) :
    m ∈ labels ∧ m.isPrefixOf x = true := by
  unfold labelHere at h
  have h1 := List.find?_some h
  exact ⟨List.mem_of_find?_eq_some h, h1⟩

theorem labels_prefix_antisymm :
    ∀ m1 ∈ labels, ∀ m2 ∈ labels, m1.isPrefixOf m2 = true → m1 = m2 := by
  decide

theorem find?_eq_some_of_mem_unique {L : List (List Char)} {p : List Char → Bool}
    {m : List Char} (hm : m ∈ L) (hpm : p m = true)
    (huniq : ∀ m' ∈ L, p m' = true → m' = m) : L.find? p = some m := by
  induction L with
  | nil => cases hm
  | cons h0 t ih =>
    rw [List.find?_cons]
    cases hp0 : p h0 with
    | true =>
      rw [huniq h0 (List.mem_cons_self _ _) hp0]
    | false =>
      rcases List.mem_cons.mp hm with rfl | hmt
      · rw [hpm] at hp0; cases hp0
      · exact ih hmt (fun m' hm' hpm' => huniq m' (List.mem_cons_of_mem _ hm') hpm')

theorem labelHere_eq_some_of_mem {x m : List Char} (hm : m ∈ labels)
    (hp : m.isPrefixOf x = true) : labelHere x = some m := by
  apply find?_eq_some_of_mem_unique hm hp
  intro m' hm' hpm'
  have h1 : m' <+: x := List.isPrefixOf_iff_prefix.mp hpm'
  have h2 : m <+: x := List.isPrefixOf_iff_prefix.mp hp
  rcases List.prefix_or_prefix_of_prefix h1 h2 with h3 | h3
  · exact labels_prefix_antisymm m' hm' m hm (List.isPrefixOf_iff_prefix.mpr h3)
  · exact (labels_prefix_antisymm m hm m' hm' (List.isPrefixOf_iff_prefix.mpr h3)).symm

theorem labelHere_eq_none_iff {x : List Char} :
    labelHere x = none ↔ ∀ m ∈ labels, ¬ (m.isPrefixOf x = true) := by
  unfold labelHere
  exact List.find?_eq_none

theorem labels_ne_nil : ∀ m ∈ labels, m ≠ [] := by decide

theorem labels_length_le : ∀ m ∈ labels, m.length ≤ 3 := by decide

theorem labels_last : ∀ m ∈ labels, m.getLastD ' ' = '1' ∨ m.getLastD ' ' = '2' := by
  decide

theorem labels_getD1 : ∀ m ∈ labels,
    m.getD 1 ' ' = '_' ∨ m.getD 1 ' ' = '1' ∨ m.getD 1 ' ' = '2' := by decide

theorem labels_getD2 : ∀ m ∈ labels,
    m.getD 2 ' ' = '1' ∨ m.getD 2 ' ' = '2' ∨ m.getD 2 ' ' = ' ' := by decide

theorem styledData_mem_labels {d : Char} (hd : d = '1' ∨ d = '2')
    (style : ReadStyle) : styledData style d ∈ labels := by
  rcases hd with rfl | rfl <;> cases style <;> decide

theorem styledData_last {d : Char} (hd : d = '1' ∨ d = '2') (style : ReadStyle) :
    (styledData style d).getLastD ' ' = d := by
  rcases hd with rfl | rfl <;> cases style <;> decide

theorem styledData_headD (style : ReadStyle) (d : Char) (t : List Char) :
    (styledData style d ++ t).headD ' ' = 'r' ∨ (styledData style d ++ t).headD ' ' = 'R' := by
  cases style
  · left; rfl
  · right; rfl
  · left; rfl
  · right; rfl

theorem prefix_of_prefix_append_of_le {lab bs Y : List Char}
    (h : lab <+: bs ++ Y) (hlen : lab.length ≤ bs.length) : lab <+: bs := by
  rcases List.prefix_or_prefix_of_prefix h (List.prefix_append bs Y) with h1 | h1
  · exact h1
  · rw [h1.eq_of_length (le_antisymm h1.length_le hlen)]

theorem labelHere_none_of_gap {bs Y Z : List Char} (hbs : bs ≠ [])
    (hZ : labelHere (bs ++ Z) = none)
    (hY : Y.headD ' ' = 'r' ∨ Y.headD ' ' = 'R') :
    labelHere (bs ++ Y) = none := by
  rw [labelHere_eq_none_iff] at hZ ⊢
  intro lab hlab hpre
  have h : lab <+: bs ++ Y := List.isPrefixOf_iff_prefix.mp hpre
  by_cases hlen : lab.length ≤ bs.length
  · have h1 : lab <+: bs := prefix_of_prefix_append_of_le h hlen
    exact hZ lab hlab
      (List.isPrefixOf_iff_prefix.mpr (h1.trans (List.prefix_append bs Z)))
  · push_neg at hlen
    obtain ⟨t, ht⟩ := h
    have hidx : lab.getD bs.length ' ' = Y.headD ' ' := by
      have h1 : (lab ++ t).getD bs.length ' ' = (bs ++ Y).getD bs.length ' ' := by
        rw [ht]
      rw [List.getD_append _ _ _ _ hlen] at h1
      rw [List.getD_append_right _ _ _ _ (le_refl _)] at h1
      rw [Nat.sub_self] at h1
      cases hYe : Y with
      | nil =>
        rw [hYe] at h1
        rw [h1]
        rfl
      | cons y ys =>
        rw [hYe] at h1
        rw [h1]
        rfl
    have hblen : 0 < bs.length := List.length_pos.mpr hbs
    have hlab3 : lab.length ≤ 3 := labels_length_le lab hlab
    have hb12 : bs.length = 1 ∨ bs.length = 2 := by omega
    have hset : lab.getD bs.length ' ' = '_' ∨ lab.getD bs.length ' ' = '1' ∨
        lab.getD bs.length ' ' = '2' ∨ lab.getD bs.length ' ' = ' ' := by
      rcases hb12 with hb | hb
      · rw [hb]
        rcases labels_getD1 lab hlab with h | h | h
        · exact Or.inl h
        · exact Or.inr (Or.inl h)
        · exact Or.inr (Or.inr (Or.inl h))
      · rw [hb]
        rcases labels_getD2 lab hlab with h | h | h
        · exact Or.inr (Or.inl h)
        · exact Or.inr (Or.inr (Or.inl h))
        · exact Or.inr (Or.inr (Or.inr h))
    rw [hidx] at hset
    rcases hY with hY | hY <;> rw [hY] at hset <;>
      rcases hset with h | h | h | h <;> cases h

/-- C9 (amended): the read-label reformatting of the planner is idempotent
as an operation: applying it twice with the same style gives the same
string as applying it once. -/
theorem claim_C9_amended (orig : String) (style : ReadStyle) :
    reformat_out (reformat_out orig style) style = reformat_out orig style := by
  cases hfh : firstHit labelHere orig.data with
  | none =>
    have h0 : reformat_out orig style = orig := by
      unfold reformat_out
      rw [hfh]
    rw [h0]
    exact h0
  | some im =>
    obtain ⟨i, m⟩ := im
    obtain ⟨hm, hleft⟩ := firstHit_eq_some_iff.mp hfh
    obtain ⟨hmem, hpre⟩ := labelHere_some hm
    have hmne : m ≠ [] := labels_ne_nil m hmem
    have hd : m.getLastD ' ' = '1' ∨ m.getLastD ' ' = '2' := labels_last m hmem
    have hprefix : m <+: orig.data.drop i := List.isPrefixOf_iff_prefix.mp hpre
    obtain ⟨after, hafter⟩ := hprefix
    have hafter' : (orig.data.drop i).drop m.length = after := by
      rw [← hafter, List.drop_left]
    have hilen : i < orig.data.length := by
      by_contra hge
      push_neg at hge
      rw [List.drop_eq_nil_of_le hge] at hafter
      exact hmne (List.append_eq_nil.mp hafter).1
    have htlen : (orig.data.take i).length = i := by
      rw [List.length_take]
      omega
    have hfr : format_read (String.mk ['r', m.getLastD ' ']) style =
        some (String.mk (styledData style (m.getLastD ' '))) := format_read_mk_r _ style
    have h1 : reformat_out orig style =
        String.mk (orig.data.take i ++ styledData style (m.getLastD ' ') ++ after) := by
      unfold reformat_out
      rw [hfh]
      dsimp only
      rw [hfr]
      dsimp only
      rw [hafter']
    have horig : orig.data = orig.data.take i ++ (m ++ after) := by
      conv_lhs => rw [← List.take_append_drop i orig.data]
      rw [hafter]
    have hT : firstHit labelHere
        (orig.data.take i ++ styledData style (m.getLastD ' ') ++ after) =
        some (i, styledData style (m.getLastD ' ')) := by
      apply firstHit_eq_some_iff.mpr
      constructor
      · rw [List.append_assoc, List.drop_left' htlen]
        exact labelHere_eq_some_of_mem (styledData_mem_labels hd style)
          (List.isPrefixOf_iff_prefix.mpr (List.prefix_append _ _))
      · intro j hj
        have hj' : j ≤ (orig.data.take i).length := by omega
        rw [List.append_assoc, List.drop_append_of_le_length hj']
        apply labelHere_none_of_gap
        · intro hnil
          rw [List.drop_eq_nil_iff] at hnil
          omega
        · have hthis := hleft j hj
          rw [horig, List.drop_append_of_le_length hj'] at hthis
          exact hthis
        · exact styledData_headD style _ after
    rw [h1]
    unfold reformat_out
    dsimp only
    rw [hT]
    dsimp only
    rw [styledData_last hd style, hfr]
    dsimp only
    rw [List.append_assoc (List.take i orig.data) (styledData style (m.getLastD ' ')) after]
    rw [List.take_left' htlen, List.drop_left' htlen, List.drop_left,
      List.append_assoc]

/-- C9 (counterexample to the claim as stated): for the group key `xr1`
(derived from the legitimate input `xr1_r1.fq.gz`), read `r1` and style
`R_`, the aggregator stores the output name `xr1_R_1.fq.gz`; applying the
planner's read-label reformatting with the same style changes it to
`xR_1_R_1.fq.gz`, because the leftmost label the regex finds is the `r1`
inside the key, not the appended style label. -/
theorem claim_C9_counterexample :
    aggregate GroupMode.preMode ReadStyle.R_ ["xr1_r1.fq.gz"] =
      [(("xr1", "r1"), ⟨["xr1_r1.fq.gz"], "xr1_R_1.fq.gz"⟩)] ∧
    reformat_out "xr1_R_1.fq.gz" ReadStyle.R_ = "xR_1_R_1.fq.gz" ∧
    reformat_out "xr1_R_1.fq.gz" ReadStyle.R_ ≠ "xr1_R_1.fq.gz" := by
  refine ⟨?_, ?_, ?_⟩
  · decide
  · decide
  · decide
